import Mathlib

/-!
# Verification of the tic-tac-toe game logic in `src/App.js`

Shallow embedding of the game logic of the repository's single source file
`src/App.js`: the win evaluator `calculateWinner`, the `Board` component's
click handler and status derivation, and the `Game` component's state
(`history`, `currentMove`, `isAscending`) with its transitions `handlePlay`,
`jumpTo` and `toggleSortOrder`.

JavaScript conventions are embedded as follows: a square holds `'X'`, `'O'`
or `null`, embedded as `Option Mark`; reading `squares[i]` past the end of
the array yields `undefined`, which like `null` is falsy, so both embed to
`none`; assigning `squares[i] = v` past the end extends the array, padding
with holes (`none`).  Indices are natural numbers (the UI only produces
`0..8`).
-/

/-- The mark of a player: `'X'` or `'O'` in the source. -/
inductive Mark where
  | X : Mark
  | O : Mark
deriving DecidableEq, Repr

/-- One board square: `null` (empty) or a mark. -/
abbrev Cell := Option Mark

/-- A board is the JS array `squares`; normally 9 cells, row-major. -/
abbrev Board := List Cell

/-- JS read `squares[i]`: `undefined` (here `none`) past the end. -/
def getCell : Board → Nat → Cell
  | [], _ => none
  | c :: _, 0 => c
  | _ :: bs, i + 1 => getCell bs i

/-- JS write `squares[i] = v`: in place when `i` is in range, otherwise the
array grows to length `i + 1` with holes (`none`) in between. -/
def setCell : Board → Nat → Cell → Board
  | [], 0, v => [v]
  | [], i + 1, v => none :: setCell [] i v
  | _ :: bs, 0, v => v :: bs
  | b :: bs, i + 1, v => b :: setCell bs i v

/-- Result of `calculateWinner` when a winner exists: the object
`{ player, line }` returned at `App.js:162`. -/
structure WinInfo where
  player : Mark
  line : List Nat
deriving DecidableEq, Repr

/-- The 8 fixed winning lines of `App.js:147-156`, in source order. -/
def lines : List (Nat × Nat × Nat) :=
  [(0, 1, 2), (3, 4, 5), (6, 7, 8),
   (0, 3, 6), (1, 4, 7), (2, 5, 8),
   (0, 4, 8), (2, 4, 6)]

/-- One iteration of the loop body of `calculateWinner`
(`if (squares[a] && squares[a] === squares[b] && squares[a] === squares[c])`):
the truthiness test on `squares[a]` guards the equality tests, and the
returned object is `{ player: squares[a], line: [a, b, c] }`. -/
def checkLine (squares : Board) (l : Nat × Nat × Nat) : Option WinInfo :=
  (getCell squares l.1).bind fun m =>
    if getCell squares l.2.1 = some m ∧ getCell squares l.2.2 = some m then
      some ⟨m, [l.1, l.2.1, l.2.2]⟩
    else
      none

/-- The loop of `calculateWinner`: early return at the first matching line. -/
def winnerAux (squares : Board) : List (Nat × Nat × Nat) → Option WinInfo
  | [] => none
  | l :: rest =>
      match checkLine squares l with
      | some w => some w
      | none => winnerAux squares rest

/-- `calculateWinner` of `App.js:145-167`. -/
def calculateWinner (squares : Board) : Option WinInfo :=
  winnerAux squares lines

/-- One history entry: the object `{ squares, location }`. -/
structure Entry where
  squares : Board
  location : String
deriving DecidableEq, Repr

/-- The state held by the `Game` component: `history`, `currentMove`,
`isAscending`. -/
structure GameState where
  history : List Entry
  currentMove : Nat
  isAscending : Bool
deriving DecidableEq, Repr

/-- The entry the initial `useState` call builds:
`{ squares: Array(9).fill(null), location: '' }`. -/
def initialEntry : Entry :=
  ⟨List.replicate 9 none, ""⟩

/-- The initial `Game` state (`App.js:91-93`). -/
def initialState : GameState :=
  ⟨[initialEntry], 0, true⟩

/-- `xIsNext = currentMove % 2 === 0` (`App.js:95`). -/
def xIsNext (s : GameState) : Bool :=
  s.currentMove % 2 == 0

/-- `currentSquares = history[currentMove].squares` (`App.js:97`); only read
with a valid pointer in the running app. -/
def currentSquares (s : GameState) : Board :=
  match s.history[s.currentMove]? with
  | some e => e.squares
  | none => []

/-- `handlePlay` (`App.js:100-104`): truncate history after the pointer,
append the new entry, move the pointer to the new last index. -/
def handlePlay (s : GameState) (nextSquares : Board) (moveLocation : String) :
    GameState :=
  let nextHistory := s.history.take (s.currentMove + 1) ++ [⟨nextSquares, moveLocation⟩]
  { s with history := nextHistory, currentMove := nextHistory.length - 1 }

/-- The move-location string built at `App.js:23-24,32`:
`(col, row)` with `col = i % 3 + 1` and `row = ⌊i / 3⌋ + 1`. -/
def locString (i : Nat) : String :=
  "(" ++ toString (i % 3 + 1) ++ ", " ++ toString (i / 3 + 1) ++ ")"

/-- `handleClick(i)` (`App.js:15-33`) followed by `onPlay = handlePlay`:
return early when a winner exists or `squares[i]` is truthy; otherwise copy
the board, place `'X'` or `'O'` at `i` and hand the new board and location
to `handlePlay`. -/
def play (s : GameState) (i : Nat) : GameState :=
  let squares := currentSquares s
  if calculateWinner squares ≠ none ∨ getCell squares i ≠ none then
    s
  else
    handlePlay s
      (setCell squares i (some (if xIsNext s then Mark.X else Mark.O)))
      (locString i)

/-- `jumpTo` (`App.js:107-109`): set `currentMove`, nothing else. -/
def jumpTo (s : GameState) (nextMove : Nat) : GameState :=
  { s with currentMove := nextMove }

/-- `toggleSortOrder` (`App.js:112-114`): flip `isAscending`, nothing else. -/
def toggleSortOrder (s : GameState) : GameState :=
  { s with isAscending := !s.isAscending }

/-- The status the `Board` component derives (`App.js:36-49`): winner first,
then `squares.every(Boolean)` for the draw, else next player by `xIsNext`. -/
inductive Status where
  | winner (player : Mark) (line : List Nat) : Status
  | draw : Status
  | nextPlayer (player : Mark) : Status
deriving DecidableEq, Repr

/-- `squares.every(Boolean)` (`App.js:43`): every cell is truthy. -/
def boardFull (squares : Board) : Bool :=
  squares.all fun c => c.isSome

/-- Status derivation of `App.js:36-49` for a given board and turn flag. -/
def boardStatus (xNext : Bool) (squares : Board) : Status :=
  match calculateWinner squares with
  | some w => Status.winner w.player w.line
  | none =>
      if boardFull squares then Status.draw
      else Status.nextPlayer (if xNext then Mark.X else Mark.O)

/-- The status the app shows for a game state: the `Board` component is
rendered with `xIsNext` and `currentSquares` (`App.js:132`). -/
def status (s : GameState) : Status :=
  boardStatus (xIsNext s) (currentSquares s)

/-- Number of non-empty cells of a board. -/
def countFilled (b : Board) : Nat :=
  b.countP fun c => c.isSome

/-- Number of cells of a board holding the mark `m`. -/
def countMark (m : Mark) (b : Board) : Nat :=
  b.countP fun c => c == some m

/-- The mark placed by the player whose turn it is at pointer `k`:
`'X'` when `k` is even (`xIsNext`), `'O'` otherwise. -/
def parityMark (k : Nat) : Mark :=
  if k % 2 = 0 then Mark.X else Mark.O

/-- States reachable from the initial `Game` state through the three UI
operations; `jumpTo` is only ever invoked by the move list with a valid
history index (`App.js:117-126`). -/
inductive Reachable : GameState → Prop where
  | init : Reachable initialState
  | play_step (s : GameState) (i : Nat) : Reachable s → Reachable (play s i)
  | jump_step (s : GameState) (m : Nat) : Reachable s →
      m < s.history.length → Reachable (jumpTo s m)
  | toggle_step (s : GameState) : Reachable s → Reachable (toggleSortOrder s)

/-- The state invariant maintained by the `Game` component: the pointer is a
valid history index, index 0 is the initial empty-board entry, the snapshot
at index `k` has exactly `k` marks with the `X`/`O` split forced by
alternation, and consecutive snapshots differ by exactly one new mark of the
parity-determined player. -/
structure GameInv (s : GameState) : Prop where
  ptr_lt : s.currentMove < s.history.length
  first : s.history[0]? = some initialEntry
  counts : ∀ (k : Nat) (e : Entry), s.history[k]? = some e →
    9 ≤ e.squares.length ∧ countFilled e.squares = k ∧
    countMark Mark.X e.squares = (k + 1) / 2 ∧
    countMark Mark.O e.squares = k / 2
  steps : ∀ (k : Nat) (e e' : Entry), s.history[k]? = some e →
    s.history[k + 1]? = some e' →
    ∃ i : Nat, getCell e.squares i = none ∧
      e'.squares = setCell e.squares i (some (parityMark k))

/-- The spec's notion of a winning triple: all three cells non-empty and
equal. -/
def TripleWins (squares : Board) (l : Nat × Nat × Nat) : Prop :=
  getCell squares l.1 ≠ none ∧
  getCell squares l.1 = getCell squares l.2.1 ∧
  getCell squares l.1 = getCell squares l.2.2

instance (squares : Board) (l : Nat × Nat × Nat) :
    Decidable (TripleWins squares l) := by
  unfold TripleWins; infer_instance

/-- The indices of a winning line as `calculateWinner` returns them. -/
def tripleList (l : Nat × Nat × Nat) : List Nat :=
  [l.1, l.2.1, l.2.2]

/-- A 9-cell board carrying the mark `m` exactly on the cells of `l`. -/
def soloBoard (m : Mark) (l : Nat × Nat × Nat) : Board :=
  (List.range 9).map
    (fun i => if i = l.1 ∨ i = l.2.1 ∨ i = l.2.2 then some m else none)

theorem checkLine_eq_none {squares : Board} {l : Nat × Nat × Nat} :
    checkLine squares l = none ↔ ¬ TripleWins squares l := by
  unfold checkLine TripleWins
  cases h : getCell squares l.1 with
  | none => simp
  | some m =>
      by_cases hbc : getCell squares l.2.1 = some m ∧ getCell squares l.2.2 = some m
      · simp [hbc.1, hbc.2]
      · have hnw :
            ¬((some m : Cell) ≠ none ∧ some m = getCell squares l.2.1 ∧
              some m = getCell squares l.2.2) :=
          fun hw => hbc ⟨hw.2.1.symm, hw.2.2.symm⟩
        simp only [Option.some_bind, if_neg hbc]
        exact iff_of_true trivial hnw

theorem checkLine_eq_some {squares : Board} {l : Nat × Nat × Nat} {w : WinInfo} :
    checkLine squares l = some w ↔
      TripleWins squares l ∧ getCell squares l.1 = some w.player ∧
        w.line = tripleList l := by
  unfold checkLine TripleWins
  obtain ⟨p, ln⟩ := w
  cases h : getCell squares l.1 with
  | none => simp
  | some m =>
      by_cases hbc : getCell squares l.2.1 = some m ∧ getCell squares l.2.2 = some m
      · simp only [Option.some_bind, if_pos hbc, Option.some.injEq, WinInfo.mk.injEq]
        constructor
        · rintro ⟨rfl, rfl⟩
          exact ⟨⟨by simp, hbc.1.symm, hbc.2.symm⟩, rfl, rfl⟩
        · rintro ⟨-, hp, hl⟩
          exact ⟨hp, hl.symm⟩
      · simp only [Option.some_bind, if_neg hbc]
        constructor
        · intro hw; cases hw
        · rintro ⟨⟨-, hb, hc⟩, -, -⟩
          exact absurd ⟨hb.symm, hc.symm⟩ hbc

theorem winnerAux_eq_none {squares : Board} {ls : List (Nat × Nat × Nat)} :
    winnerAux squares ls = none ↔ ∀ l ∈ ls, ¬ TripleWins squares l := by
  induction ls with
  | nil => simp [winnerAux]
  | cons l rest ih =>
      unfold winnerAux
      cases h : checkLine squares l with
      | some w =>
          constructor
          · intro hw'; cases hw'
          · intro hall
            exact absurd (checkLine_eq_some.mp h).1 (hall l (by simp))
      | none =>
          simp only [ih, List.mem_cons]
          constructor
          · intro hrest l' hl'
            rcases hl' with rfl | hl'
            · exact checkLine_eq_none.mp h
            · exact hrest l' hl'
          · intro hall l' hl'
            exact hall l' (Or.inr hl')

theorem winnerAux_eq_some {squares : Board} {ls : List (Nat × Nat × Nat)}
    {w : WinInfo} (hw : winnerAux squares ls = some w) :
    ∃ (i : Nat) (l : Nat × Nat × Nat), ls[i]? = some l ∧ TripleWins squares l ∧
      (∀ (j : Nat) (l' : Nat × Nat × Nat),
        j < i → ls[j]? = some l' → ¬ TripleWins squares l') ∧
      getCell squares l.1 = some w.player ∧ w.line = tripleList l := by
  induction ls with
  | nil => cases hw
  | cons l rest ih =>
      unfold winnerAux at hw
      cases h : checkLine squares l with
      | some w' =>
          rw [h] at hw
          cases hw
          obtain ⟨hwin, hp, hl⟩ := checkLine_eq_some.mp h
          exact ⟨0, l, by simp, hwin, fun j l' hj _ => absurd hj (Nat.not_lt_zero j),
            hp, hl⟩
      | none =>
          rw [h] at hw
          obtain ⟨i, l', hget, hwin, hfirst, hp, hl⟩ := ih hw
          refine ⟨i + 1, l', by simpa using hget, hwin, ?_, hp, hl⟩
          intro j l'' hj hj'
          cases j with
          | zero =>
              have hl'' : l = l'' := by simpa using hj'
              subst hl''
              exact checkLine_eq_none.mp h
          | succ j' =>
              exact hfirst j' l'' (Nat.lt_of_succ_lt_succ hj) (by simpa using hj')

/-- C1: `calculateWinner` checks exactly the 8 fixed triples (rows, columns,
diagonals), returns the mark and indices of the first triple in source order
whose three cells are non-empty and equal, returns `none` when no triple
wins, and on each board holding one mark exactly on one of the 8 triples it
returns that mark and that triple. -/
theorem calculateWinner_spec (squares : Board) :
    (calculateWinner squares = none ↔ ∀ l ∈ lines, ¬ TripleWins squares l) ∧
    (∀ w, calculateWinner squares = some w →
      ∃ (i : Nat) (l : Nat × Nat × Nat), lines[i]? = some l ∧ TripleWins squares l ∧
        (∀ (j : Nat) (l' : Nat × Nat × Nat),
          j < i → lines[j]? = some l' → ¬ TripleWins squares l') ∧
        getCell squares l.1 = some w.player ∧ w.line = tripleList l) ∧
    (∀ l ∈ lines,
      calculateWinner (soloBoard Mark.X l) = some ⟨Mark.X, tripleList l⟩ ∧
      calculateWinner (soloBoard Mark.O l) = some ⟨Mark.O, tripleList l⟩) := by
  refine ⟨winnerAux_eq_none, fun w hw => winnerAux_eq_some hw, ?_⟩
  decide

/-- Witness for C1: the empty board has no winning triple, so the theorem
yields `calculateWinner = none` there. -/
theorem calculateWinner_spec_witness :
    calculateWinner (List.replicate 9 none) = none :=
  (calculateWinner_spec (List.replicate 9 none)).1.mpr (by decide)

theorem getCell_nil (i : Nat) : getCell [] i = none := by
  cases i <;> rfl

theorem getCell_setCell_self (v : Cell) :
    ∀ (i : Nat) (b : Board), getCell (setCell b i v) i = v := by
  intro i
  induction i with
  | zero => intro b; cases b <;> rfl
  | succ i ih =>
      intro b
      cases b with
      | nil => exact ih []
      | cons c bs => exact ih bs

theorem getCell_setCell_ne (v : Cell) :
    ∀ (i j : Nat) (b : Board), j ≠ i →
      getCell (setCell b i v) j = getCell b j := by
  intro i
  induction i with
  | zero =>
      intro j b hj
      cases b with
      | nil =>
          cases j with
          | zero => exact absurd rfl hj
          | succ j' => rfl
      | cons c bs =>
          cases j with
          | zero => exact absurd rfl hj
          | succ j' => rfl
  | succ i ih =>
      intro j b hj
      cases b with
      | nil =>
          cases j with
          | zero => rfl
          | succ j' => exact ih j' [] fun h => hj (by rw [h])
      | cons c bs =>
          cases j with
          | zero => rfl
          | succ j' => exact ih j' bs fun h => hj (by rw [h])

theorem length_setCell (v : Cell) :
    ∀ (i : Nat) (b : Board), (setCell b i v).length = max b.length (i + 1) := by
  intro i
  induction i with
  | zero =>
      intro b
      cases b with
      | nil => rfl
      | cons c bs => simp only [setCell, List.length_cons]; omega
  | succ i ih =>
      intro b
      cases b with
      | nil => simp only [setCell, List.length_cons, List.length_nil, ih []]; omega
      | cons c bs => simp only [setCell, List.length_cons, ih bs]; omega

theorem countP_setCell (p : Cell → Bool) (hp : p none = false) (v : Cell) :
    ∀ (i : Nat) (b : Board), getCell b i = none →
      (setCell b i v).countP p = b.countP p + (if p v then 1 else 0) := by
  intro i
  induction i with
  | zero =>
      intro b hb
      cases b with
      | nil => simp [setCell, List.countP_cons]
      | cons c bs =>
          have hc : c = none := hb
          subst hc
          simp [setCell, List.countP_cons, hp]
  | succ i ih =>
      intro b hb
      cases b with
      | nil =>
          have h1 := ih [] (getCell_nil i)
          simp [setCell, List.countP_cons, List.countP_nil, hp, h1]
      | cons c bs =>
          have h1 := ih bs hb
          simp only [setCell, List.countP_cons, h1]
          omega

theorem currentSquares_eq {s : GameState} {e : Entry}
    (h : s.history[s.currentMove]? = some e) : currentSquares s = e.squares := by
  simp [currentSquares, h]

theorem play_of_guard_true {s : GameState} {i : Nat}
    (hg : calculateWinner (currentSquares s) ≠ none ∨
      getCell (currentSquares s) i ≠ none) :
    play s i = s := by
  simp only [play]
  rw [if_pos hg]

theorem play_of_guard_false {s : GameState} {i : Nat}
    (h1 : calculateWinner (currentSquares s) = none)
    (h2 : getCell (currentSquares s) i = none) :
    play s i =
      handlePlay s
        (setCell (currentSquares s) i
          (some (if xIsNext s then Mark.X else Mark.O)))
        (locString i) := by
  simp only [play]
  rw [if_neg]
  push_neg
  exact ⟨h1, h2⟩

theorem handlePlay_history (s : GameState) (ns : Board) (loc : String) :
    (handlePlay s ns loc).history =
      s.history.take (s.currentMove + 1) ++ [⟨ns, loc⟩] := rfl

theorem handlePlay_currentMove (s : GameState) (ns : Board) (loc : String)
    (hp : s.currentMove < s.history.length) :
    (handlePlay s ns loc).currentMove = s.currentMove + 1 := by
  simp only [handlePlay, List.length_append, List.length_take,
    List.length_cons, List.length_nil]
  omega

theorem parityMark_eq_ifX (s : GameState) :
    (if xIsNext s then Mark.X else Mark.O) = parityMark s.currentMove := by
  by_cases h : s.currentMove % 2 = 0 <;> simp [xIsNext, parityMark, h]

theorem counts_setCell {b : Board} {i : Nat} (hb : getCell b i = none) (m : Mark) :
    countFilled (setCell b i (some m)) = countFilled b + 1 ∧
    countMark m (setCell b i (some m)) = countMark m b + 1 ∧
    ∀ m', m' ≠ m → countMark m' (setCell b i (some m)) = countMark m' b := by
  refine ⟨?_, ?_, ?_⟩
  · rw [countFilled, countFilled, countP_setCell _ rfl _ i b hb]
    simp
  · rw [countMark, countMark, countP_setCell _ rfl _ i b hb]
    simp
  · intro m' hm'
    rw [countMark, countMark, countP_setCell _ rfl _ i b hb]
    have : ((some m : Cell) == some m') = false := by
      simp [hm'.symm]
    rw [this]
    simp

theorem gameInv_initial : GameInv initialState := by
  refine ⟨by decide, rfl, ?_, ?_⟩
  · intro k e hk
    cases k with
    | zero =>
        have he : e = initialEntry := by
          simpa [initialState] using hk.symm
        subst he
        exact ⟨by decide, by decide, by decide, by decide⟩
    | succ k' => simp [initialState] at hk
  · intro k e e' hk hk1
    cases k with
    | zero => simp [initialState] at hk1
    | succ k' => simp [initialState] at hk1

theorem gameInv_jumpTo {s : GameState} (h : GameInv s) {m : Nat}
    (hm : m < s.history.length) : GameInv (jumpTo s m) :=
  ⟨hm, h.first, h.counts, h.steps⟩

theorem gameInv_toggle {s : GameState} (h : GameInv s) :
    GameInv (toggleSortOrder s) :=
  ⟨h.ptr_lt, h.first, h.counts, h.steps⟩

theorem gameInv_handlePlay {s : GameState} (h : GameInv s) {i : Nat}
    (h2 : getCell (currentSquares s) i = none) :
    GameInv
      (handlePlay s
        (setCell (currentSquares s) i
          (some (if xIsNext s then Mark.X else Mark.O)))
        (locString i)) := by
  have hp := h.ptr_lt
  obtain ⟨ep, hep⟩ : ∃ e, s.history[s.currentMove]? = some e :=
    ⟨_, List.getElem?_eq_getElem hp⟩
  have hcs : currentSquares s = ep.squares := currentSquares_eq hep
  obtain ⟨hlen9, hcF, hcX, hcO⟩ := h.counts s.currentMove ep hep
  have hlenT : (s.history.take (s.currentMove + 1)).length = s.currentMove + 1 := by
    rw [List.length_take]; omega
  have hpre : ∀ (E : Entry) (k : Nat), k < s.currentMove + 1 →
      (s.history.take (s.currentMove + 1) ++ [E])[k]? = s.history[k]? := by
    intro E k hk
    rw [List.getElem?_append_left (by rw [hlenT]; exact hk),
      List.getElem?_take_of_lt hk]
  have hlast : ∀ E : Entry,
      (s.history.take (s.currentMove + 1) ++ [E])[s.currentMove + 1]? = some E := by
    intro E
    have h' := List.getElem?_concat_length (s.history.take (s.currentMove + 1)) E
    rw [hlenT] at h'
    exact h'
  have hnone : ∀ (E : Entry) (k : Nat), s.currentMove + 2 ≤ k →
      (s.history.take (s.currentMove + 1) ++ [E])[k]? = none := by
    intro E k hk
    apply List.getElem?_eq_none
    simp only [List.length_append, hlenT, List.length_cons, List.length_nil]
    omega
  refine ⟨?_, ?_, ?_, ?_⟩
  · rw [handlePlay_currentMove _ _ _ hp, handlePlay_history]
    simp only [List.length_append, hlenT, List.length_cons, List.length_nil]
    omega
  · rw [handlePlay_history, hpre _ 0 (by omega)]
    exact h.first
  · intro k e hk
    rw [handlePlay_history] at hk
    rcases Nat.lt_or_ge k (s.currentMove + 1) with hk1 | hk1
    · rw [hpre _ k hk1] at hk
      exact h.counts k e hk
    · rcases Nat.lt_or_ge k (s.currentMove + 2) with hk2 | hk2
      · have hkeq : k = s.currentMove + 1 := by omega
        subst hkeq
        rw [hlast] at hk
        have he : e = ⟨setCell (currentSquares s) i
            (some (if xIsNext s then Mark.X else Mark.O)), locString i⟩ :=
          (Option.some.inj hk).symm
        subst he
        have h9 : 9 ≤ (currentSquares s).length := by rw [hcs]; exact hlen9
        have hF : countFilled (currentSquares s) = s.currentMove := by
          rw [hcs]; exact hcF
        have hX : countMark Mark.X (currentSquares s) = (s.currentMove + 1) / 2 := by
          rw [hcs]; exact hcX
        have hO : countMark Mark.O (currentSquares s) = s.currentMove / 2 := by
          rw [hcs]; exact hcO
        by_cases hpar : s.currentMove % 2 = 0
        · have hmv : (if xIsNext s then Mark.X else Mark.O) = Mark.X := by
            simp [xIsNext, hpar]
          rw [hmv]
          obtain ⟨c1, c2, c3⟩ := counts_setCell h2 Mark.X
          refine ⟨?_, ?_, ?_, ?_⟩
          · rw [length_setCell]
            omega
          · rw [c1, hF]
          · rw [c2, hX]
            omega
          · rw [c3 Mark.O (by simp), hO]
            omega
        · have hmv : (if xIsNext s then Mark.X else Mark.O) = Mark.O := by
            simp [xIsNext, hpar]
          rw [hmv]
          obtain ⟨c1, c2, c3⟩ := counts_setCell h2 Mark.O
          refine ⟨?_, ?_, ?_, ?_⟩
          · rw [length_setCell]
            omega
          · rw [c1, hF]
          · rw [c3 Mark.X (by simp), hX]
            omega
          · rw [c2, hO]
            omega
      · rw [hnone _ k hk2] at hk
        cases hk
  · intro k e e' hk hk1
    rw [handlePlay_history] at hk hk1
    rcases Nat.lt_or_ge (k + 1) (s.currentMove + 1) with hk2 | hk2
    · rw [hpre _ k (by omega)] at hk
      rw [hpre _ (k + 1) hk2] at hk1
      exact h.steps k e e' hk hk1
    · rcases Nat.lt_or_ge (k + 1) (s.currentMove + 2) with hk3 | hk3
      · have hkeq : k = s.currentMove := by omega
        subst hkeq
        rw [hpre _ s.currentMove (by omega), hep] at hk
        have he : e = ep := (Option.some.inj hk).symm
        subst he
        rw [hlast] at hk1
        have he' : e' = ⟨setCell (currentSquares s) i
            (some (if xIsNext s then Mark.X else Mark.O)), locString i⟩ :=
          (Option.some.inj hk1).symm
        subst he'
        refine ⟨i, by rw [← hcs]; exact h2, ?_⟩
        rw [← hcs, parityMark_eq_ifX]
      · rw [hnone _ (k + 1) hk3] at hk1
        cases hk1

theorem gameInv_play {s : GameState} (h : GameInv s) (i : Nat) :
    GameInv (play s i) := by
  by_cases hg : calculateWinner (currentSquares s) ≠ none ∨
      getCell (currentSquares s) i ≠ none
  · rw [play_of_guard_true hg]
    exact h
  · push_neg at hg
    rw [play_of_guard_false hg.1 hg.2]
    exact gameInv_handlePlay h hg.2

theorem reachable_inv {s : GameState} (h : Reachable s) : GameInv s := by
  induction h with
  | init => exact gameInv_initial
  | play_step s i _ ih => exact gameInv_play ih i
  | jump_step s m _ hm ih => exact gameInv_jumpTo ih hm
  | toggle_step s _ ih => exact gameInv_toggle ih

theorem getCell_eq_none_of_le :
    ∀ (b : Board) (i : Nat), b.length ≤ i → getCell b i = none := by
  intro b
  induction b with
  | nil => intro i _; exact getCell_nil i
  | cons c bs ih =>
      intro i hi
      cases i with
      | zero => simp at hi
      | succ i' => exact ih i' (by simpa using hi)

theorem getCell_eq_getElem? (b : Board) (i : Nat) :
    getCell b i = (b[i]?).getD none := by
  induction b generalizing i with
  | nil => simp [getCell_nil]
  | cons c bs ih =>
      cases i with
      | zero => simp [getCell]
      | succ i' => simpa [getCell] using ih i'

theorem getCell_ne_none_of_full {b : Board} (hf : boardFull b = true) {i : Nat}
    (hi : i < b.length) : getCell b i ≠ none := by
  rw [getCell_eq_getElem?, List.getElem?_eq_getElem hi]
  have hmem := List.getElem_mem hi
  have hsome := List.all_eq_true.mp hf _ hmem
  simp only [Option.getD_some]
  exact Option.ne_none_iff_isSome.mpr (by simpa using hsome)

theorem currentSquares_length {s : GameState} (hs : Reachable s) :
    9 ≤ (currentSquares s).length := by
  have h := reachable_inv hs
  obtain ⟨e, he⟩ : ∃ e, s.history[s.currentMove]? = some e :=
    ⟨_, List.getElem?_eq_getElem h.ptr_lt⟩
  rw [currentSquares_eq he]
  exact (h.counts _ e he).1

theorem getElem?_take_append_lt (H : List Entry) (E : Entry) {k p : Nat}
    (hk : k < p + 1) (hk2 : k < H.length) :
    (H.take (p + 1) ++ [E])[k]? = H[k]? := by
  rw [List.getElem?_append_left (by rw [List.length_take]; omega),
    List.getElem?_take_of_lt hk]

theorem getElem?_take_append_last (H : List Entry) (E : Entry) (p : Nat)
    (hp : p < H.length) :
    (H.take (p + 1) ++ [E])[p + 1]? = some E := by
  have hlenT : (H.take (p + 1)).length = p + 1 := by
    rw [List.length_take]; omega
  have h' := List.getElem?_concat_length (H.take (p + 1)) E
  rw [hlenT] at h'
  exact h'

theorem currentSquares_play {s : GameState} {i : Nat}
    (hp : s.currentMove < s.history.length)
    (h1 : calculateWinner (currentSquares s) = none)
    (h2 : getCell (currentSquares s) i = none) :
    currentSquares (play s i) =
      setCell (currentSquares s) i
        (some (if xIsNext s then Mark.X else Mark.O)) := by
  rw [play_of_guard_false h1 h2]
  refine currentSquares_eq
    (e := ⟨setCell (currentSquares s) i
        (some (if xIsNext s then Mark.X else Mark.O)), locString i⟩) ?_
  rw [handlePlay_history, handlePlay_currentMove _ _ _ hp]
  exact getElem?_take_append_last _ _ _ hp

/-- C2: in every reachable game state, `play i` with `i` in the interface
range `0..8` is a silent no-op — the whole state, hence board, history and
pointer, is unchanged — whenever a winner already exists on the current
board, the current board is full, or the target cell is occupied. -/
theorem play_noop_terminal (s : GameState) (i : Nat) (hs : Reachable s)
    (hi : i < 9)
    (h : calculateWinner (currentSquares s) ≠ none ∨
      boardFull (currentSquares s) = true ∨
      getCell (currentSquares s) i ≠ none) :
    play s i = s := by
  rcases h with hw | hf | ho
  · exact play_of_guard_true (Or.inl hw)
  · have h9 := currentSquares_length hs
    exact play_of_guard_true (Or.inr (getCell_ne_none_of_full hf (by omega)))
  · exact play_of_guard_true (Or.inr ho)

/-- Witness for C2: after `play 0`, cell 0 is occupied, so playing it again
changes nothing. -/
theorem play_noop_terminal_witness :
    play (play initialState 0) 0 = play initialState 0 :=
  play_noop_terminal (play initialState 0) 0
    (Reachable.play_step initialState 0 Reachable.init) (by decide) (by decide)

/-- Counterexample to C3: `play 9` (an out-of-range cell index) and
`jumpTo 5` (an out-of-range history index) both change the state of the
initial game — neither is a no-op. -/
theorem outOfRange_not_noop :
    play initialState 9 ≠ initialState ∧
    jumpTo initialState 5 ≠ initialState := by
  decide

/-- C3 (amended): out-of-range inputs are not validated. `jumpTo m` sets the
pointer to `m` unconditionally (history and sort flag preserved), and
`play i` at an index beyond the current board, when no winner exists,
proceeds as a normal play: the board is extended with the parity mark at
index `i` and a new history entry is appended. -/
theorem outOfRange_behavior (s : GameState) (i m : Nat) :
    ((jumpTo s m).history = s.history ∧ (jumpTo s m).currentMove = m ∧
      (jumpTo s m).isAscending = s.isAscending) ∧
    (calculateWinner (currentSquares s) = none →
      (currentSquares s).length ≤ i →
      play s i =
        handlePlay s
          (setCell (currentSquares s) i
            (some (if xIsNext s then Mark.X else Mark.O)))
          (locString i)) := by
  refine ⟨⟨rfl, rfl, rfl⟩, ?_⟩
  intro h1 h2
  exact play_of_guard_false h1 (getCell_eq_none_of_le _ _ h2)

/-- Witness for C3 (amended): jumping to the invalid index 5 sets the
pointer to 5, and playing the out-of-range cell 9 of the fresh board
appends a history entry with the extended board. -/
theorem outOfRange_behavior_witness :
    (jumpTo initialState 5).currentMove = 5 ∧
    play initialState 9 =
      handlePlay initialState
        (setCell (currentSquares initialState) 9 (some Mark.X))
        (locString 9) :=
  ⟨(outOfRange_behavior initialState 9 5).1.2.1,
    (outOfRange_behavior initialState 9 5).2 (by decide) (by decide)⟩

/-- C4: a successful play truncates history after the pointer, appends one
entry `{board, location}`, and sets the pointer to the new last index;
history keeps its initial entry at index 0 and stays non-empty; and the
sequence `play 0, play 4, jumpTo 0, play 4` ends with history length 2 and
pointer 1. -/
theorem play_truncates_appends (s : GameState) (i : Nat) (hs : Reachable s)
    (h1 : calculateWinner (currentSquares s) = none)
    (h2 : getCell (currentSquares s) i = none) :
    ((play s i).history =
        s.history.take (s.currentMove + 1) ++
          [⟨setCell (currentSquares s) i
              (some (if xIsNext s then Mark.X else Mark.O)), locString i⟩] ∧
      (play s i).currentMove = (play s i).history.length - 1 ∧
      (play s i).history[0]? = some initialEntry ∧
      (play s i).history ≠ []) ∧
    ((play (jumpTo (play (play initialState 0) 4) 0) 4).history.length = 2 ∧
      (play (jumpTo (play (play initialState 0) 4) 0) 4).currentMove = 1) := by
  have hp := (reachable_inv hs).ptr_lt
  refine ⟨⟨?_, ?_, ?_, ?_⟩, by decide, by decide⟩
  · rw [play_of_guard_false h1 h2, handlePlay_history]
  · rw [play_of_guard_false h1 h2]
    rfl
  · rw [play_of_guard_false h1 h2, handlePlay_history,
      getElem?_take_append_lt _ _ (by omega) (by omega)]
    exact (reachable_inv hs).first
  · rw [play_of_guard_false h1 h2, handlePlay_history]
    simp

/-- Witness for C4: the first play from the fresh state truncates nothing,
appends the one-mark snapshot and moves the pointer to the end. -/
theorem play_truncates_appends_witness :
    (play initialState 0).history =
      initialState.history.take 1 ++
        [⟨setCell (currentSquares initialState) 0 (some Mark.X),
          locString 0⟩] :=
  (play_truncates_appends initialState 0 Reachable.init
    (by decide) (by decide)).1.1

/-- C5: the derived status is the winner's mark and line when the win
evaluator finds one, else draw when the board is full, else the next player
determined by pointer parity (even pointer means `X`); the 5-move sequence
`0,1,3,4,6` yields winner `X` on line `[0,3,6]`, and a full board without a
winning triple shows a draw. -/
theorem status_spec (s : GameState) :
    (∀ w : WinInfo, calculateWinner (currentSquares s) = some w →
      status s = Status.winner w.player w.line) ∧
    (calculateWinner (currentSquares s) = none →
      boardFull (currentSquares s) = true → status s = Status.draw) ∧
    (calculateWinner (currentSquares s) = none →
      boardFull (currentSquares s) = false →
      status s =
        Status.nextPlayer (if s.currentMove % 2 = 0 then Mark.X else Mark.O)) ∧
    status (play (play (play (play (play initialState 0) 1) 3) 4) 6) =
      Status.winner Mark.X [0, 3, 6] ∧
    boardStatus true
      [some Mark.X, some Mark.X, some Mark.O,
       some Mark.O, some Mark.O, some Mark.X,
       some Mark.X, some Mark.O, some Mark.X] = Status.draw := by
  refine ⟨?_, ?_, ?_, by decide, by decide⟩
  · intro w hw
    simp [status, boardStatus, hw]
  · intro hw hf
    simp [status, boardStatus, hw, hf]
  · intro hw hf
    by_cases hpar : s.currentMove % 2 = 0 <;>
      simp [status, boardStatus, hw, hf, xIsNext, hpar]

/-- Witness for C5: the left-column winning sequence, read off through the
winner clause of the theorem. -/
theorem status_spec_witness :
    status (play (play (play (play (play initialState 0) 1) 3) 4) 6) =
      Status.winner Mark.X [0, 3, 6] :=
  (status_spec (play (play (play (play (play initialState 0) 1) 3) 4) 6)).1
    ⟨Mark.X, [0, 3, 6]⟩ (by decide)

/-- C6: in every reachable state the player to move is given by pointer
parity (`xIsNext` is true exactly on even pointers), a successful play
writes the parity-determined mark into exactly the one previously empty
target cell (all other cells unchanged), and along the stored history each
snapshot extends the previous one by exactly one mark, strictly
alternating `X` and `O` by index parity. -/
theorem turn_alternation (s : GameState) (hs : Reachable s) :
    (xIsNext s = true ↔ s.currentMove % 2 = 0) ∧
    (∀ i : Nat, calculateWinner (currentSquares s) = none →
      getCell (currentSquares s) i = none →
      getCell (currentSquares (play s i)) i = some (parityMark s.currentMove) ∧
      ∀ j : Nat, j ≠ i →
        getCell (currentSquares (play s i)) j = getCell (currentSquares s) j) ∧
    (∀ (k : Nat) (e e' : Entry), s.history[k]? = some e →
      s.history[k + 1]? = some e' →
      ∃ i : Nat, getCell e.squares i = none ∧
        e'.squares = setCell e.squares i (some (parityMark k))) := by
  have hinv := reachable_inv hs
  refine ⟨by simp [xIsNext], ?_, hinv.steps⟩
  intro i h1 h2
  rw [currentSquares_play hinv.ptr_lt h1 h2, parityMark_eq_ifX]
  exact ⟨getCell_setCell_self _ _ _, fun j hj => getCell_setCell_ne _ _ _ _ hj⟩

/-- Witness for C6: the first move of the game places the even-parity mark
`X` at the played cell. -/
theorem turn_alternation_witness :
    getCell (currentSquares (play initialState 4)) 4 = some (parityMark 0) :=
  ((turn_alternation initialState Reachable.init).2.1 4
    (by decide) (by decide)).1

/-- C7: `toggleSortOrder` flips only the sort flag, leaving history and
pointer unchanged, and `jumpTo` with a valid history index sets only the
pointer, leaving history and the sort flag unchanged. -/
theorem toggleSort_jumpTo_frame (s : GameState) (m : Nat) :
    (toggleSortOrder s).history = s.history ∧
    (toggleSortOrder s).currentMove = s.currentMove ∧
    (toggleSortOrder s).isAscending = !s.isAscending ∧
    (m < s.history.length →
      (jumpTo s m).history = s.history ∧ (jumpTo s m).currentMove = m ∧
        (jumpTo s m).isAscending = s.isAscending) :=
  ⟨rfl, rfl, rfl, fun _ => ⟨rfl, rfl, rfl⟩⟩

/-- Witness for C7: jumping to the valid index 0 of the fresh game. -/
theorem toggleSort_jumpTo_frame_witness :
    (jumpTo initialState 0).history = initialState.history ∧
    (jumpTo initialState 0).currentMove = 0 :=
  ⟨((toggleSort_jumpTo_frame initialState 0).2.2.2 (by decide)).1,
    ((toggleSort_jumpTo_frame initialState 0).2.2.2 (by decide)).2.1⟩

/-- C8: the location stored with a successful play at cell `i` is the
string `(col, row)` with 1-based `col = i % 3 + 1` and `row = i / 3 + 1`,
and the initial history entry has an empty location. -/
theorem play_location (s : GameState) (i : Nat)
    (h1 : calculateWinner (currentSquares s) = none)
    (h2 : getCell (currentSquares s) i = none) :
    (play s i).history.getLast? =
      some ⟨setCell (currentSquares s) i
          (some (if xIsNext s then Mark.X else Mark.O)),
        "(" ++ toString (i % 3 + 1) ++ ", " ++ toString (i / 3 + 1) ++ ")"⟩ ∧
    initialState.history = [⟨List.replicate 9 none, ""⟩] := by
  refine ⟨?_, rfl⟩
  rw [play_of_guard_false h1 h2, handlePlay_history]
  exact List.getLast?_concat _

/-- Witness for C8: playing cell 4 (centre) stores the location string
`(2, 2)`. -/
theorem play_location_witness :
    (play initialState 4).history.getLast? =
      some ⟨setCell (currentSquares initialState) 4 (some Mark.X), "(2, 2)"⟩ :=
  (play_location initialState 4 (by decide) (by decide)).1

/-- C9: no operation mutates a history entry it keeps: `toggleSortOrder`
and `jumpTo` leave the whole history untouched, and a play leaves every
entry up to the current pointer (in particular every entry it does not
discard) identical at its index. -/
theorem history_entries_preserved (s : GameState) (i m : Nat) :
    (toggleSortOrder s).history = s.history ∧
    (jumpTo s m).history = s.history ∧
    (∀ k : Nat, k ≤ s.currentMove → k < s.history.length →
      (play s i).history[k]? = s.history[k]?) := by
  refine ⟨rfl, rfl, ?_⟩
  intro k hk1 hk2
  by_cases hg : calculateWinner (currentSquares s) ≠ none ∨
      getCell (currentSquares s) i ≠ none
  · rw [play_of_guard_true hg]
  · push_neg at hg
    rw [play_of_guard_false hg.1 hg.2, handlePlay_history]
    exact getElem?_take_append_lt _ _ (by omega) hk2

/-- Witness for C9: the initial snapshot survives the first play
unchanged. -/
theorem history_entries_preserved_witness :
    (play initialState 0).history[0]? = initialState.history[0]? :=
  (history_entries_preserved initialState 0 0).2.2 0 (Nat.le_refl 0) (by decide)

/-- C10: in every reachable state, the snapshot stored at history index `k`
holds exactly `k` marks, `⌈k/2⌉` of them `X` and `⌊k/2⌋` of them `O`. -/
theorem history_mark_counts (s : GameState) (hs : Reachable s) (k : Nat)
    (e : Entry) (hk : s.history[k]? = some e) :
    countFilled e.squares = k ∧
    countMark Mark.X e.squares = (k + 1) / 2 ∧
    countMark Mark.O e.squares = k / 2 :=
  ⟨((reachable_inv hs).counts k e hk).2.1,
    ((reachable_inv hs).counts k e hk).2.2.1,
    ((reachable_inv hs).counts k e hk).2.2.2⟩

/-- Witness for C10: the initial snapshot at index 0 holds no marks. -/
theorem history_mark_counts_witness :
    countFilled initialEntry.squares = 0 ∧
    countMark Mark.X initialEntry.squares = (0 + 1) / 2 ∧
    countMark Mark.O initialEntry.squares = 0 / 2 :=
  history_mark_counts initialState Reachable.init 0 initialEntry (by decide)

-- sanity checks on concrete runs
example : calculateWinner (List.replicate 9 none) = none := by decide

example :
    calculateWinner
      [some Mark.X, none, none, some Mark.X, none, none, some Mark.X, none, none] =
      some ⟨Mark.X, [0, 3, 6]⟩ := by decide

example : (play initialState 0).history.length = 2 := by decide

example : (play initialState 9).history.length = 2 := by decide

example :
    status (play (play (play (play (play initialState 0) 1) 3) 4) 6) =
      Status.winner Mark.X [0, 3, 6] := by decide
